import Mathlib

/-!
Verification of the thread-local collective engines of legate.core.

Source files embedded here:
* `src/core/comm/alltoall_thread_local.cc` — `collAlltoallLocal`, the
  fixed-extent all-to-all engine;
* `src/core/comm/alltoallv_thread_local.cc` — `collAlltoallvLocal`, the
  ragged (variable-size) all-to-all engine.

Buffers are modelled as lists of byte values (`List Nat`); the C call
`memcpy(dst + a, src + b, n)` becomes `writeSeg dst a (readSeg src b n)`.
Each engine is modelled twice, at two levels of abstraction:
* a data-flow model (`collAlltoallLocal`, `collAlltoallvLocal`,
  `alltoallExchange`, `alltoallvExchange`) computing the byte contents of
  the calling rank's buffers after the call, with the peers' published
  buffers passed in as a function (the publish/poll protocol guarantees a
  peer's buffer is read only after it is published, and no rank ever
  writes a peer's published bytes during a call, so the contents each
  rank observes are exactly the peers' published snapshots);
* an event-trace model (`alltoallTrace`, `alltoallvTrace`) recording the
  program order of stores, fences, copies, the barrier entry, the scratch
  free and the pool-cursor advance, for the ordering properties.
-/

namespace LegateColl

/-- Bytes `[off, off+len)` of a buffer, as `memcpy` reads them. -/
def readSeg (buf : List Nat) (off len : Nat) : List Nat :=
  (buf.drop off).take len

/-- Overwrite the bytes of `buf` starting at `off` with `data`, as
`memcpy` writes them. -/
def writeSeg (buf : List Nat) (off : Nat) (data : List Nat) : List Nat :=
  buf.take off ++ data ++ buf.drop (off + data.length)

/-- The return value of both engines (`return collSuccess;`). -/
def collSuccess : Int := 0

/-- The peer polled at loop iteration `i = j + 1` of the exchange loop:
`recvfrom_global_rank = (global_rank + total_size - i) % total_size`
(`alltoall_thread_local.cc` line 61, `alltoallv_thread_local.cc` line 72). -/
def peerOf (size rank j : Nat) : Nat :=
  (rank + size - (j + 1)) % size

/-- The copy loop of `collAlltoallLocal` (lines 60–71), run by `rank`:
for `i = 1 .. total_size`, wait for peer `(rank + size - i) % size` and
copy `sendcount * sendtype_extent` bytes from that peer's published
buffer at offset `recvfrom_seg_id * sendtype_extent * sendcount`
(`recvfrom_seg_id = global_rank`) to `recvbuf` at offset
`recvfrom_global_rank * recvtype_extent * recvcount`.  Under the
asserted preconditions `recvcount == sendcount` and
`sendtype == recvtype` the two extents and counts coincide, so a single
`count` and extent `e` appear here. -/
def alltoallExchange (size count e rank : Nat)
    (published : Nat → List Nat) (recv0 : List Nat) : List Nat :=
  (List.range size).foldl
    (fun recv j =>
      writeSeg recv (peerOf size rank j * e * count)
        (readSeg (published (peerOf size rank j))
          (rank * e * count) (count * e)))
    recv0

/-- The copy loop of `collAlltoallvLocal` (lines 71–97), run by `rank`:
for each polled peer, copy `recvcounts[peer] * recvtype_extent` bytes
from the peer's published buffer at offset
`displs[recvfrom_seg_id] * sendtype_extent` (where `displs` is the
peer's own published send-displacement table and
`recvfrom_seg_id = global_rank`) to `recvbuf` at offset
`rdispls[peer] * recvtype_extent`. -/
def alltoallvExchange (size e rank : Nat) (published : Nat → List Nat)
    (pubDispls : Nat → Nat → Nat) (rcounts rdispls : Nat → Nat)
    (recv0 : List Nat) : List Nat :=
  (List.range size).foldl
    (fun recv j =>
      writeSeg recv (rdispls (peerOf size rank j) * e)
        (readSeg (published (peerOf size rank j))
          (pubDispls (peerOf size rank j) rank * e)
          (rcounts (peerOf size rank j) * e)))
    recv0

/-- The calling rank's two buffers: the contents of `sendbuf` and of
`recvbuf`. -/
structure RankMem where
  send : List Nat
  recv : List Nat
deriving DecidableEq, Repr

/-- `sendbuf_tmp` of `collAlltoallLocal` (lines 40–50): when
`sendbuf == recvbuf` (`inPlace`), a scratch buffer of
`total_size * sendtype_extent * sendcount` bytes is allocated and the
current contents of `recvbuf` are copied into it; otherwise `sendbuf`
itself is published. -/
def alltoallSendTmp (size count e : Nat) (inPlace : Bool)
    (mem : RankMem) : List Nat :=
  if inPlace then mem.recv.take (size * e * count) else mem.send

/-- `total_send_count` of `collAlltoallvLocal` (line 53):
`sdispls[total_size - 1] + sendcounts[total_size - 1]`. -/
def alltoallvScratchCount (size : Nat) (scounts sdispls : Nat → Nat) : Nat :=
  sdispls (size - 1) + scounts (size - 1)

/-- `sendbuf_tmp` of `collAlltoallvLocal` (lines 49–61): when
`sendbuf == recvbuf`, a scratch buffer of
`sendtype_extent * total_send_count` bytes is allocated and that many
bytes of `recvbuf` are copied into it; otherwise `sendbuf` itself is
published. -/
def alltoallvSendTmp (size e : Nat) (scounts sdispls : Nat → Nat)
    (inPlace : Bool) (mem : RankMem) : List Nat :=
  if inPlace then
    mem.recv.take (e * alltoallvScratchCount size scounts sdispls)
  else mem.send

/-- Data-flow model of `collAlltoallLocal` for the calling rank.
`none` models the `assert` aborting (lines 30–31: the call proceeds only
when `recvcount == sendcount` and `sendtype == recvtype`).  `extentOf`
is `get_dtype_size`; `inPlace` is the pointer test `sendbuf == recvbuf`;
`peerPub` gives the buffers the peers published into the current pool
slot (the calling rank's own slot entry holds `sendbuf_tmp`, line 53).
On success the call returns `collSuccess` and the updated buffers; the
exchange loop writes only into `recvbuf`. -/
def collAlltoallLocal (size rank : Nat)
    (sendcount sendtype recvcount recvtype : Nat)
    (extentOf : Nat → Nat) (inPlace : Bool) (mem : RankMem)
    (peerPub : Nat → List Nat) : Option (Int × RankMem) :=
  if recvcount ≠ sendcount then none
  else if sendtype ≠ recvtype then none
  else
    let e := extentOf sendtype
    let sendbufTmp := alltoallSendTmp size sendcount e inPlace mem
    let published := fun p => if p = rank then sendbufTmp else peerPub p
    some (collSuccess,
      ⟨mem.send, alltoallExchange size sendcount e rank published mem.recv⟩)

/-- Data-flow model of `collAlltoallvLocal` for the calling rank.
`none` models the `assert` aborting (line 40: the call proceeds only
when `sendtype == recvtype`).  `scounts`, `sdispls`, `rcounts`,
`rdispls` are the calling rank's four tables (element counts and element
offsets); `peerPub p` / `peerSdispls p` are the buffer and
send-displacement table peer `p` published into the current slot
(lines 63–64; the calling rank's own entries hold `sendbuf_tmp` and
`sdispls`). -/
def collAlltoallvLocal (size rank : Nat) (sendtype recvtype : Nat)
    (extentOf : Nat → Nat) (scounts sdispls rcounts rdispls : Nat → Nat)
    (inPlace : Bool) (mem : RankMem)
    (peerPub : Nat → List Nat) (peerSdispls : Nat → Nat → Nat) :
    Option (Int × RankMem) :=
  if sendtype ≠ recvtype then none
  else
    let e := extentOf sendtype
    let sendbufTmp := alltoallvSendTmp size e scounts sdispls inPlace mem
    let published := fun p => if p = rank then sendbufTmp else peerPub p
    let pubDispls := fun p => if p = rank then sdispls else peerSdispls p
    some (collSuccess,
      ⟨mem.send,
        alltoallvExchange size e rank published pubDispls rcounts rdispls
          mem.recv⟩)

/-- Buffers a store can target: the caller's send buffer, its receive
buffer, the freshly allocated scratch buffer, or the shared pool-slot
entries owned by the calling rank. -/
inductive Dest
  | sendB
  | recvB
  | scratch
  | slot
deriving DecidableEq, Repr

/-- One step of a call, in program order. -/
inductive Event
  | storePtr
  | storeFlag
  | storeDispls
  | fence
  | scratchCopy
  | copy (peer : Nat)
  | barrier
  | freeScratch
  | advance
deriving DecidableEq, Repr

/-- The buffer written by an event, if any.  The per-peer copies of both
engines write through `recvbuf` (`dst = (char*)recvbuf + ...`); the
aliased-case pre-copy writes into the scratch buffer; the publication
stores write the rank's own pool-slot entries. -/
def writeDest : Event → Option Dest
  | Event.storePtr => some Dest.slot
  | Event.storeFlag => some Dest.slot
  | Event.storeDispls => some Dest.slot
  | Event.scratchCopy => some Dest.scratch
  | Event.copy _ => some Dest.recvB
  | Event.fence => none
  | Event.barrier => none
  | Event.freeScratch => none
  | Event.advance => none

/-- Recognizes the published-pointer store. -/
def isStorePtr : Event → Bool
  | Event.storePtr => true
  | _ => false

/-- Program-order event trace of `collAlltoallLocal`, read off the
source: optional scratch copy (lines 43–47), store of the published
pointer (line 53), store of the ready flag (line 54),
`__sync_synchronize()` (line 55), the per-peer copy loop (lines 60–71),
`collBarrierLocal()` (line 73), optional `free(sendbuf_tmp)`
(lines 74–76), `collUpdateBuffer` (line 78), `__sync_synchronize()`
(line 79). -/
def alltoallTrace (size rank : Nat) (inPlace : Bool) : List Event :=
  (if inPlace then [Event.scratchCopy] else []) ++
  [Event.storePtr, Event.storeFlag, Event.fence] ++
  (List.range size).map (fun j => Event.copy (peerOf size rank j)) ++
  [Event.barrier] ++
  (if inPlace then [Event.freeScratch] else []) ++
  [Event.advance, Event.fence]

/-- Program-order event trace of `collAlltoallvLocal`, read off the
source: optional scratch copy (lines 52–58), store of the displacement
table (line 63), store of the published pointer (line 64),
`__sync_synchronize()` (line 65), the per-peer copy loop (lines 71–97),
`collBarrierLocal` (line 99), optional `free(sendbuf_tmp)` (line 100),
`__sync_synchronize()` (line 102), `collUpdateBuffer` (line 104). -/
def alltoallvTrace (size rank : Nat) (inPlace : Bool) : List Event :=
  (if inPlace then [Event.scratchCopy] else []) ++
  [Event.storeDispls, Event.storePtr, Event.fence] ++
  (List.range size).map (fun j => Event.copy (peerOf size rank j)) ++
  [Event.barrier] ++
  (if inPlace then [Event.freeScratch] else []) ++
  [Event.fence, Event.advance]

/-- One poll-and-copy attempt of the ragged engine for one peer
(lines 73–96): the spin condition is
`buffers[peer] == NULL || displs[peer] == NULL`; only when both entries
are non-null does the copy run, reading `rcounts peer * e` bytes of the
observed buffer at element offset `d rank` of the observed table and
writing them to `recvbuf` at element offset `rdispls peer`.  `none`
means the loop is still spinning and no copy has happened. -/
def raggedTryCopy (e rank peer : Nat) (rcounts rdispls : Nat → Nat)
    (buf : Option (List Nat)) (dis : Option (Nat → Nat))
    (recv : List Nat) : Option (List Nat) :=
  match buf, dis with
  | some b, some d =>
      some (writeSeg recv (rdispls peer * e)
        (readSeg b (d rank * e) (rcounts peer * e)))
  | _, _ => none

/-- The spin-wait of the ragged engine (lines 73–75), with the shared
slot sampled once per iteration: `obs t` is the pair
`(buffers[peer], displs[peer])` read at time `t`.  The loop exits with
the observed values at the first time both are non-null; `fuel` bounds
the number of iterations modelled (`none` = still spinning). -/
def raggedWaitLoop (obs : Nat → Option (List Nat) × Option (Nat → Nat)) :
    Nat → Nat → Option (Nat × List Nat × (Nat → Nat))
  | _, 0 => none
  | t, fuel + 1 =>
    match (obs t).1, (obs t).2 with
    | some b, some d => some (t, b, d)
    | _, _ => raggedWaitLoop obs (t + 1) fuel

/-- The publication-fencing property claimed for `collAlltoallLocal`:
somewhere in the trace a fence precedes the published-pointer store,
which precedes the ready-flag store, which precedes another fence. -/
def fencedPublication (t : List Event) : Prop :=
  ∃ f1 < t.length, ∃ p < t.length, ∃ q < t.length, ∃ f2 < t.length,
    f1 < p ∧ p < q ∧ q < f2 ∧
    t.get? f1 = some Event.fence ∧ t.get? p = some Event.storePtr ∧
    t.get? q = some Event.storeFlag ∧ t.get? f2 = some Event.fence

/-- Post-exchange sequencing of one engine trace: the trace splits as
all the per-peer copies, then the barrier entry, then (exactly when the
buffers alias) the scratch free, then a tail holding the single
pool-cursor advance; the advance happens exactly once in the whole call
and never before the barrier. -/
def seqOK (t : List Event) (inPlace : Bool) : Prop :=
  ∃ pre post,
    t = pre ++ [Event.barrier] ++
        (if inPlace then [Event.freeScratch] else []) ++ post ∧
    (∀ p, Event.copy p ∈ t → Event.copy p ∈ pre) ∧
    Event.barrier ∉ pre ∧ Event.freeScratch ∉ pre ∧
    Event.advance ∉ pre ∧
    Event.barrier ∉ post ∧ Event.freeScratch ∉ post ∧
    (∀ p, Event.copy p ∉ post) ∧
    post.count Event.advance = 1 ∧
    t.count Event.advance = 1

/-! ### Pointwise characterization of segment reads and writes -/

theorem readSeg_get? (buf : List Nat) (off len j : Nat) :
    (readSeg buf off len).get? j =
      if j < len then buf.get? (off + j) else none := by
  unfold readSeg
  by_cases h : j < len
  · rw [List.get?_take h, List.get?_drop]
    simp [h]
  · have hlen : ((buf.drop off).take len).length ≤ j := by
      simp only [List.length_take, List.length_drop]
      omega
    rw [if_neg h]
    exact List.get?_eq_none.mpr hlen

theorem writeSeg_get? (buf : List Nat) (off : Nat) (data : List Nat)
    (j : Nat) (h : off + data.length ≤ buf.length) :
    (writeSeg buf off data).get? j =
      if j < off then buf.get? j
      else if j < off + data.length then data.get? (j - off)
      else buf.get? j := by
  unfold writeSeg
  have htake : (buf.take off).length = off := by
    simp only [List.length_take]
    omega
  have htd : (buf.take off ++ data).length = off + data.length := by
    rw [List.length_append, htake]
  by_cases h1 : j < off
  · rw [List.get?_append (by rw [htd]; omega),
      List.get?_append (by rw [htake]; exact h1), List.get?_take h1]
    rw [if_pos h1]
  · by_cases h2 : j < off + data.length
    · rw [List.get?_append (by rw [htd]; exact h2),
        List.get?_append_right (by rw [htake]; omega), htake]
      rw [if_neg h1, if_pos h2]
    · rw [List.get?_append_right (by rw [htd]; omega), htd, List.get?_drop]
      have heq : off + data.length + (j - (off + data.length)) = j := by
        omega
      rw [heq, if_neg h1, if_neg h2]

theorem length_readSeg (buf : List Nat) (off len : Nat) :
    (readSeg buf off len).length = min len (buf.length - off) := by
  unfold readSeg
  simp [List.length_take, List.length_drop]

theorem length_writeSeg (buf : List Nat) (off : Nat) (data : List Nat)
    (h : off + data.length ≤ buf.length) :
    (writeSeg buf off data).length = buf.length := by
  unfold writeSeg
  simp only [List.length_append, List.length_take, List.length_drop]
  omega

theorem readSeg_writeSeg_self (buf : List Nat) (off : Nat)
    (data : List Nat) (h : off + data.length ≤ buf.length) :
    readSeg (writeSeg buf off data) off data.length = data := by
  apply List.ext
  intro j
  rw [readSeg_get?]
  by_cases hj : j < data.length
  · rw [if_pos hj, writeSeg_get? _ _ _ _ h]
    have h1 : ¬ (off + j < off) := by omega
    have h2 : off + j < off + data.length := by omega
    rw [if_neg h1, if_pos h2]
    congr 1
    omega
  · rw [if_neg hj, eq_comm]
    exact List.get?_eq_none.mpr (by omega)

theorem readSeg_writeSeg_disjoint (buf : List Nat) (off1 : Nat)
    (data : List Nat) (off2 len2 : Nat)
    (h : off1 + data.length ≤ buf.length)
    (hd : off2 + len2 ≤ off1 ∨ off1 + data.length ≤ off2) :
    readSeg (writeSeg buf off1 data) off2 len2 = readSeg buf off2 len2 := by
  apply List.ext
  intro j
  rw [readSeg_get?, readSeg_get?]
  by_cases hj : j < len2
  · rw [if_pos hj, if_pos hj, writeSeg_get? _ _ _ _ h]
    rcases hd with hd | hd
    · rw [if_pos (by omega)]
    · rw [if_neg (by omega), if_neg (by omega)]
  · rw [if_neg hj, if_neg hj]

theorem readSeg_take (l : List Nat) (s off len : Nat)
    (h : off + len ≤ s) :
    readSeg (l.take s) off len = readSeg l off len := by
  apply List.ext
  intro j
  rw [readSeg_get?, readSeg_get?]
  by_cases hj : j < len
  · rw [if_pos hj, if_pos hj, List.get?_take (by omega)]
  · rw [if_neg hj, if_neg hj]

/-- Two buffers made of `n` segments of `L` bytes are equal as soon as
all their segments are. -/
theorem segExt (L : Nat) : ∀ (n : Nat) (a b : List Nat),
    a.length = n * L → b.length = n * L →
    (∀ p, p < n → readSeg a (p * L) L = readSeg b (p * L) L) →
    a = b := by
  intro n
  induction n with
  | zero =>
    intro a b ha hb _
    have ha0 : a.length = 0 := by simpa using ha
    have hb0 : b.length = 0 := by simpa using hb
    rw [List.length_eq_zero.mp ha0, List.length_eq_zero.mp hb0]
  | succ n ih =>
    intro a b ha hb hseg
    have hmul : (n + 1) * L = n * L + L := by ring
    have hL : L ≤ a.length := by omega
    have hL' : L ≤ b.length := by omega
    have h0 : a.take L = b.take L := by
      have := hseg 0 (Nat.succ_pos n)
      simpa [readSeg] using this
    have hrest : a.drop L = b.drop L := by
      apply ih
      · simp [List.length_drop]; omega
      · simp [List.length_drop]; omega
      · intro p hp
        have hd : ∀ (l : List Nat), readSeg (l.drop L) (p * L) L
            = readSeg l ((p + 1) * L) L := by
          intro l
          unfold readSeg
          rw [List.drop_drop]
          congr 2
          ring
        rw [hd a, hd b]
        exact hseg (p + 1) (by omega)
    calc a = a.take L ++ a.drop L := (List.take_append_drop L a).symm
      _ = b.take L ++ b.drop L := by rw [h0, hrest]
      _ = b := List.take_append_drop L b

/-! ### Folds of writes into pairwise-disjoint destination segments -/

theorem foldWrites_length (offs : Nat → Nat) (data : Nat → List Nat) :
    ∀ (js : List Nat) (recv : List Nat),
      (∀ q ∈ js, offs q + (data q).length ≤ recv.length) →
      (js.foldl (fun r q => writeSeg r (offs q) (data q)) recv).length
        = recv.length := by
  intro js
  induction js with
  | nil => intro recv _; rfl
  | cons q rest ih =>
    intro recv hb
    have hq := hb q (by simp)
    have hlen : (writeSeg recv (offs q) (data q)).length = recv.length :=
      length_writeSeg _ _ _ hq
    rw [List.foldl_cons,
      ih (writeSeg recv (offs q) (data q))
        (fun q' hq' => by rw [hlen]; exact hb q' (List.mem_cons_of_mem _ hq')),
      hlen]

theorem foldWrites_not_mem (offs : Nat → Nat) (data : Nat → List Nat)
    (p lenp : Nat) :
    ∀ (js : List Nat) (recv : List Nat),
      (∀ q ∈ js, offs q + (data q).length ≤ recv.length) →
      (∀ q ∈ js, offs p + lenp ≤ offs q ∨ offs q + (data q).length ≤ offs p) →
      p ∉ js →
      readSeg (js.foldl (fun r q => writeSeg r (offs q) (data q)) recv)
          (offs p) lenp
        = readSeg recv (offs p) lenp := by
  intro js
  induction js with
  | nil => intro recv _ _ _; rfl
  | cons q rest ih =>
    intro recv hb hd hnm
    have hq := hb q (by simp)
    have hlen : (writeSeg recv (offs q) (data q)).length = recv.length :=
      length_writeSeg _ _ _ hq
    rw [List.foldl_cons,
      ih (writeSeg recv (offs q) (data q))
        (fun q' hq' => by rw [hlen]; exact hb q' (List.mem_cons_of_mem _ hq'))
        (fun q' hq' => hd q' (List.mem_cons_of_mem _ hq'))
        (fun hmem => hnm (List.mem_cons_of_mem _ hmem))]
    exact readSeg_writeSeg_disjoint _ _ _ _ _ hq (hd q (by simp))

/-- After folding one write per destination segment over a list of
pairwise `p`-disjoint indices, the segment of an index that occurs in
the list holds exactly its data. -/
theorem foldWrites_mem (offs : Nat → Nat) (data : Nat → List Nat)
    (p : Nat) :
    ∀ (js : List Nat) (recv : List Nat),
      (∀ q ∈ js, offs q + (data q).length ≤ recv.length) →
      (∀ q ∈ js, q ≠ p →
        offs p + (data p).length ≤ offs q ∨
        offs q + (data q).length ≤ offs p) →
      p ∈ js →
      readSeg (js.foldl (fun r q => writeSeg r (offs q) (data q)) recv)
          (offs p) (data p).length
        = data p := by
  intro js
  induction js with
  | nil => intro recv _ _ hmem; exact absurd hmem (List.not_mem_nil p)
  | cons q rest ih =>
    intro recv hb hd hmem
    have hq := hb q (by simp)
    have hlen : (writeSeg recv (offs q) (data q)).length = recv.length :=
      length_writeSeg _ _ _ hq
    rw [List.foldl_cons]
    by_cases hp : p ∈ rest
    · exact ih (writeSeg recv (offs q) (data q))
        (fun q' hq' => by rw [hlen]; exact hb q' (List.mem_cons_of_mem _ hq'))
        (fun q' hq' => hd q' (List.mem_cons_of_mem _ hq')) hp
    · have hqp : q = p := by
        rcases List.mem_cons.mp hmem with h | h
        · exact h.symm
        · exact absurd h hp
      subst hqp
      rw [foldWrites_not_mem _ _ _ _ rest (writeSeg recv (offs q) (data q))
        (fun q' hq' => by rw [hlen]; exact hb q' (List.mem_cons_of_mem _ hq'))
        (fun q' hq' => hd q' (List.mem_cons_of_mem _ hq')
          (fun h => hp (h ▸ hq'))) hp]
      exact readSeg_writeSeg_self _ _ _ hq

/-! ### Arithmetic of the ring traversal and of contiguous segments -/

theorem peerOf_lt (size rank j : Nat) (hsize : 0 < size) :
    peerOf size rank j < size := by
  unfold peerOf
  exact Nat.mod_lt _ hsize

/-- Every destination rank `p < size` is polled at some iteration of the
ring traversal. -/
theorem peerOf_surj (size rank p : Nat) (hrank : rank < size)
    (hp : p < size) : ∃ j, j < size ∧ peerOf size rank j = p := by
  by_cases hpr : p < rank
  · refine ⟨rank - p - 1, by omega, ?_⟩
    unfold peerOf
    have h1 : rank + size - (rank - p - 1 + 1) = size + p := by omega
    rw [h1, Nat.add_comm size p, Nat.add_mod_right, Nat.mod_eq_of_lt hp]
  · refine ⟨rank + size - p - 1, by omega, ?_⟩
    unfold peerOf
    have h1 : rank + size - (rank + size - p - 1 + 1) = p := by omega
    rw [h1, Nat.mod_eq_of_lt hp]

/-- The last iteration of the ring traversal polls the caller itself. -/
theorem peerOf_last (size rank : Nat) (hrank : rank < size) :
    peerOf size rank (size - 1) = rank := by
  unfold peerOf
  have h1 : rank + size - (size - 1 + 1) = rank := by omega
  rw [h1, Nat.mod_eq_of_lt hrank]

theorem seg_bound (r size e count : Nat) (h : r < size) :
    r * e * count + count * e ≤ size * e * count := by
  have hm : (r + 1) * (e * count) ≤ size * (e * count) :=
    Nat.mul_le_mul_right _ h
  calc r * e * count + count * e = (r + 1) * (e * count) := by ring
    _ ≤ size * (e * count) := hm
    _ = size * e * count := by ring

theorem seg_disjoint (q q' e count : Nat) (h : q ≠ q') :
    q * e * count + count * e ≤ q' * e * count ∨
    q' * e * count + count * e ≤ q * e * count := by
  rcases Nat.lt_or_ge q q' with hlt | hge
  · left
    have hm : (q + 1) * (e * count) ≤ q' * (e * count) :=
      Nat.mul_le_mul_right _ hlt
    calc q * e * count + count * e = (q + 1) * (e * count) := by ring
      _ ≤ q' * (e * count) := hm
      _ = q' * e * count := by ring
  · right
    have hlt : q' < q := by omega
    have hm : (q' + 1) * (e * count) ≤ q * (e * count) :=
      Nat.mul_le_mul_right _ hlt
    calc q' * e * count + count * e = (q' + 1) * (e * count) := by ring
      _ ≤ q * (e * count) := hm
      _ = q * e * count := by ring

/-! ### Transpose correctness of the two exchange loops -/

theorem alltoall_transpose_core (size count e rank p : Nat)
    (published : Nat → List Nat) (recv0 : List Nat)
    (hrank : rank < size) (hp : p < size)
    (hpub : ∀ q, q < size →
      rank * e * count + count * e ≤ (published q).length)
    (hrecv : ∀ q, q < size → q * e * count + count * e ≤ recv0.length) :
    readSeg (alltoallExchange size count e rank published recv0)
        (p * e * count) (count * e)
      = readSeg (published p) (rank * e * count) (count * e) := by
  have hsize : 0 < size := by omega
  have hdata : ∀ q, q < size →
      (readSeg (published q) (rank * e * count) (count * e)).length
        = count * e := by
    intro q hq
    rw [length_readSeg]
    have := hpub q hq
    exact Nat.min_eq_left (by omega)
  have hbridge : alltoallExchange size count e rank published recv0
      = ((List.range size).map (peerOf size rank)).foldl
          (fun r q => writeSeg r (q * e * count)
            (readSeg (published q) (rank * e * count) (count * e)))
          recv0 := by
    unfold alltoallExchange
    rw [List.foldl_map]
  have hjsmem : ∀ q ∈ (List.range size).map (peerOf size rank),
      q < size := by
    intro q hq
    rcases List.mem_map.mp hq with ⟨j, _, rfl⟩
    exact peerOf_lt size rank j hsize
  have hpmem : p ∈ (List.range size).map (peerOf size rank) := by
    rcases peerOf_surj size rank p hrank hp with ⟨j, hj, hpe⟩
    exact List.mem_map.mpr ⟨j, List.mem_range.mpr hj, hpe⟩
  have hmain := foldWrites_mem (fun q => q * e * count)
      (fun q => readSeg (published q) (rank * e * count) (count * e)) p
      ((List.range size).map (peerOf size rank)) recv0
      (fun q hq => by
        simp only
        rw [hdata q (hjsmem q hq)]
        exact hrecv q (hjsmem q hq))
      (fun q hq hne => by
        simp only
        rw [hdata q (hjsmem q hq), hdata p hp]
        exact seg_disjoint p q e count (fun h => hne h.symm))
      hpmem
  simp only at hmain
  rw [hdata p hp] at hmain
  rw [hbridge]
  exact hmain

/-- C1 — Transpose correctness of the fixed-extent engine: with every
rank's published payload holding `size` equal segments of
`count * e` bytes, segment `p` of rank `rank`'s receive buffer after the
copy loop equals segment `rank` of rank `p`'s published send data; and
the last peer processed by the ring order is the rank itself
(self segment included). -/
theorem alltoall_transpose (size count e rank p : Nat)
    (published : Nat → List Nat) (recv0 : List Nat)
    (hrank : rank < size) (hp : p < size)
    (hpub : ∀ q, q < size → (published q).length = size * e * count)
    (hrecv : recv0.length = size * e * count) :
    readSeg (alltoallExchange size count e rank published recv0)
        (p * e * count) (count * e)
      = readSeg (published p) (rank * e * count) (count * e)
    ∧ peerOf size rank (size - 1) = rank := by
  constructor
  · apply alltoall_transpose_core size count e rank p published recv0
      hrank hp
    · intro q hq
      rw [hpub q hq]
      exact seg_bound rank size e count hrank
    · intro q hq
      rw [hrecv]
      exact seg_bound q size e count hq
  · exact peerOf_last size rank hrank

/-- C2 — Ragged transpose correctness of the variable-size engine: for
any destination tables whose receive regions are pairwise
non-overlapping and in bounds, the `rcounts p * e` bytes of the receive
buffer at byte offset `rdispls p * e` after the copy loop equal the
bytes of peer `p`'s published buffer at byte offset `d * e`, where `d`
is entry `rank` of peer `p`'s own published send-displacement table. -/
theorem alltoallv_transpose (size e rank p : Nat)
    (published : Nat → List Nat) (pubDispls : Nat → Nat → Nat)
    (rcounts rdispls : Nat → Nat) (recv0 : List Nat)
    (hrank : rank < size) (hp : p < size)
    (hsrc : ∀ q, q < size →
      pubDispls q rank * e + rcounts q * e ≤ (published q).length)
    (hdst : ∀ q, q < size →
      rdispls q * e + rcounts q * e ≤ recv0.length)
    (hdisj : ∀ q q', q < size → q' < size → q ≠ q' →
      rdispls q + rcounts q ≤ rdispls q' ∨
      rdispls q' + rcounts q' ≤ rdispls q) :
    readSeg
        (alltoallvExchange size e rank published pubDispls rcounts rdispls
          recv0)
        (rdispls p * e) (rcounts p * e)
      = readSeg (published p) (pubDispls p rank * e) (rcounts p * e) := by
  have hsize : 0 < size := by omega
  have hdata : ∀ q, q < size →
      (readSeg (published q) (pubDispls q rank * e)
        (rcounts q * e)).length = rcounts q * e := by
    intro q hq
    rw [length_readSeg]
    have := hsrc q hq
    exact Nat.min_eq_left (by omega)
  have hbdisj : ∀ q q', q < size → q' < size → q ≠ q' →
      rdispls q * e + rcounts q * e ≤ rdispls q' * e ∨
      rdispls q' * e + rcounts q' * e ≤ rdispls q * e := by
    intro q q' hq hq' hne
    rcases hdisj q q' hq hq' hne with h | h
    · left
      calc rdispls q * e + rcounts q * e
          = (rdispls q + rcounts q) * e := (Nat.add_mul _ _ _).symm
        _ ≤ rdispls q' * e := Nat.mul_le_mul_right _ h
    · right
      calc rdispls q' * e + rcounts q' * e
          = (rdispls q' + rcounts q') * e := (Nat.add_mul _ _ _).symm
        _ ≤ rdispls q * e := Nat.mul_le_mul_right _ h
  have hbridge : alltoallvExchange size e rank published pubDispls rcounts
        rdispls recv0
      = ((List.range size).map (peerOf size rank)).foldl
          (fun r q => writeSeg r (rdispls q * e)
            (readSeg (published q) (pubDispls q rank * e) (rcounts q * e)))
          recv0 := by
    unfold alltoallvExchange
    rw [List.foldl_map]
  have hjsmem : ∀ q ∈ (List.range size).map (peerOf size rank),
      q < size := by
    intro q hq
    rcases List.mem_map.mp hq with ⟨j, _, rfl⟩
    exact peerOf_lt size rank j hsize
  have hpmem : p ∈ (List.range size).map (peerOf size rank) := by
    rcases peerOf_surj size rank p hrank hp with ⟨j, hj, hpe⟩
    exact List.mem_map.mpr ⟨j, List.mem_range.mpr hj, hpe⟩
  have hmain := foldWrites_mem (fun q => rdispls q * e)
      (fun q => readSeg (published q) (pubDispls q rank * e)
        (rcounts q * e)) p
      ((List.range size).map (peerOf size rank)) recv0
      (fun q hq => by
        simp only
        rw [hdata q (hjsmem q hq)]
        exact hdst q (hjsmem q hq))
      (fun q hq hne => by
        simp only
        rw [hdata q (hjsmem q hq), hdata p hp]
        exact hbdisj p q hp (hjsmem q hq) (fun h => hne h.symm))
      hpmem
  simp only at hmain
  rw [hdata p hp] at hmain
  rw [hbridge]
  exact hmain

/-! ### Congruence and length preservation of the exchange loops -/

theorem foldl_congr_mem {α β : Type} (f g : α → β → α) :
    ∀ (l : List β) (a : α), (∀ b ∈ l, ∀ x, f x b = g x b) →
      l.foldl f a = l.foldl g a := by
  intro l
  induction l with
  | nil => intro a _; rfl
  | cons b rest ih =>
    intro a h
    rw [List.foldl_cons, List.foldl_cons, h b (by simp) a]
    exact ih _ (fun b' hb' x => h b' (List.mem_cons_of_mem _ hb') x)

theorem alltoallExchange_congr (size count e rank : Nat)
    (pub1 pub2 : Nat → List Nat) (recv0 : List Nat)
    (h : ∀ q, q < size → pub1 q = pub2 q) :
    alltoallExchange size count e rank pub1 recv0
      = alltoallExchange size count e rank pub2 recv0 := by
  unfold alltoallExchange
  apply foldl_congr_mem
  intro j hj recv
  have hsize : 0 < size := by
    have := List.mem_range.mp hj
    omega
  rw [h _ (peerOf_lt size rank j hsize)]

theorem alltoallvExchange_congr_read (size e rank : Nat)
    (pub1 pub2 : Nat → List Nat) (pd1 pd2 : Nat → Nat → Nat)
    (rcounts rdispls : Nat → Nat) (recv0 : List Nat)
    (h : ∀ q, q < size →
      readSeg (pub1 q) (pd1 q rank * e) (rcounts q * e)
        = readSeg (pub2 q) (pd2 q rank * e) (rcounts q * e)) :
    alltoallvExchange size e rank pub1 pd1 rcounts rdispls recv0
      = alltoallvExchange size e rank pub2 pd2 rcounts rdispls recv0 := by
  unfold alltoallvExchange
  apply foldl_congr_mem
  intro j hj recv
  have hsize : 0 < size := by
    have := List.mem_range.mp hj
    omega
  rw [h _ (peerOf_lt size rank j hsize)]

theorem alltoallExchange_length (size count e rank : Nat)
    (published : Nat → List Nat) (recv0 : List Nat)
    (hpub : ∀ q, q < size →
      rank * e * count + count * e ≤ (published q).length)
    (hrecv : ∀ q, q < size → q * e * count + count * e ≤ recv0.length) :
    (alltoallExchange size count e rank published recv0).length
      = recv0.length := by
  have hsize0 : size = 0 ∨ 0 < size := by omega
  rcases hsize0 with h0 | hsize
  · subst h0; rfl
  have hbridge : alltoallExchange size count e rank published recv0
      = ((List.range size).map (peerOf size rank)).foldl
          (fun r q => writeSeg r (q * e * count)
            (readSeg (published q) (rank * e * count) (count * e)))
          recv0 := by
    unfold alltoallExchange
    rw [List.foldl_map]
  rw [hbridge]
  apply foldWrites_length
  intro q hq
  rcases List.mem_map.mp hq with ⟨j, _, rfl⟩
  have hqlt := peerOf_lt size rank j hsize
  rw [length_readSeg,
    Nat.min_eq_left (by have := hpub _ hqlt; omega)]
  exact hrecv _ hqlt

theorem alltoallSendTmp_true (size count e : Nat) (mem : RankMem) :
    alltoallSendTmp size count e true mem
      = mem.recv.take (size * e * count) := rfl

theorem alltoallSendTmp_false (size count e : Nat) (mem : RankMem) :
    alltoallSendTmp size count e false mem = mem.send := rfl

theorem alltoallvSendTmp_true (size e : Nat)
    (scounts sdispls : Nat → Nat) (mem : RankMem) :
    alltoallvSendTmp size e scounts sdispls true mem
      = mem.recv.take (e * alltoallvScratchCount size scounts sdispls) :=
  rfl

theorem alltoallvSendTmp_false (size e : Nat)
    (scounts sdispls : Nat → Nat) (mem : RankMem) :
    alltoallvSendTmp size e scounts sdispls false mem = mem.send := rfl

/-- Reduction of the fixed-extent call when the asserted preconditions
hold (equal counts, equal types). -/
theorem collAlltoallLocal_eq (size rank count stype : Nat)
    (extentOf : Nat → Nat) (inPlace : Bool) (mem : RankMem)
    (peerPub : Nat → List Nat) :
    collAlltoallLocal size rank count stype count stype extentOf inPlace
        mem peerPub
      = some (collSuccess, ⟨mem.send,
          alltoallExchange size count (extentOf stype) rank
            (fun p => if p = rank
              then alltoallSendTmp size count (extentOf stype) inPlace mem
              else peerPub p)
            mem.recv⟩) := by
  unfold collAlltoallLocal
  rw [if_neg (show ¬ count ≠ count by simp),
    if_neg (show ¬ stype ≠ stype by simp)]

/-- Reduction of the ragged call when the asserted precondition holds
(equal types). -/
theorem collAlltoallvLocal_eq (size rank stype : Nat)
    (extentOf : Nat → Nat) (scounts sdispls rcounts rdispls : Nat → Nat)
    (inPlace : Bool) (mem : RankMem) (peerPub : Nat → List Nat)
    (peerSdispls : Nat → Nat → Nat) :
    collAlltoallvLocal size rank stype stype extentOf scounts sdispls
        rcounts rdispls inPlace mem peerPub peerSdispls
      = some (collSuccess, ⟨mem.send,
          alltoallvExchange size (extentOf stype) rank
            (fun p => if p = rank
              then alltoallvSendTmp size (extentOf stype) scounts sdispls
                inPlace mem
              else peerPub p)
            (fun p => if p = rank then sdispls else peerSdispls p)
            rcounts rdispls mem.recv⟩) := by
  unfold collAlltoallvLocal
  rw [if_neg (show ¬ stype ≠ stype by simp)]

/-- C3 — In-place equivalence.  First part, fixed-extent engine: a call
with aliased buffers (the send data pre-placed in the shared buffer,
published through the freshly copied scratch) produces the same final
receive contents as a call with a distinct send buffer holding the
identical data, whatever the distinct-run receive buffer held before
the call.  Second part, ragged engine: likewise, with both runs starting
from the same buffer contents, provided each peer's reads land inside
the scratch prefix `extent * (sdispls[size-1] + scounts[size-1])` of its
published data (the sorted-table convention). -/
theorem inplace_equivalence :
    (∀ (size rank count stype : Nat) (extentOf : Nat → Nat)
        (D : Nat → List Nat) (R scratch : List Nat),
      rank < size →
      (∀ q, q < size → (D q).length = size * extentOf stype * count) →
      R.length = size * extentOf stype * count →
      Option.map (fun o => o.2.recv)
          (collAlltoallLocal size rank count stype count stype extentOf
            true ⟨scratch, D rank⟩
            (fun p => (D p).take (size * extentOf stype * count)))
        = Option.map (fun o => o.2.recv)
            (collAlltoallLocal size rank count stype count stype extentOf
              false ⟨D rank, R⟩ D)) ∧
    (∀ (size rank stype : Nat) (extentOf : Nat → Nat)
        (Dv : Nat → List Nat) (scountsOf sdisplsOf : Nat → Nat → Nat)
        (rcounts rdispls : Nat → Nat) (scratch : List Nat),
      (∀ p, p < size →
        sdisplsOf p rank * extentOf stype
            + rcounts p * extentOf stype
          ≤ extentOf stype
              * (sdisplsOf p (size - 1) + scountsOf p (size - 1))) →
      Option.map (fun o => o.2.recv)
          (collAlltoallvLocal size rank stype stype extentOf
            (scountsOf rank) (sdisplsOf rank) rcounts rdispls
            true ⟨scratch, Dv rank⟩
            (fun p => (Dv p).take (extentOf stype
              * (sdisplsOf p (size - 1) + scountsOf p (size - 1))))
            sdisplsOf)
        = Option.map (fun o => o.2.recv)
            (collAlltoallvLocal size rank stype stype extentOf
              (scountsOf rank) (sdisplsOf rank) rcounts rdispls
              false ⟨Dv rank, Dv rank⟩ Dv sdisplsOf)) := by
  constructor
  · intro size rank count stype extentOf D R scratch hrank hD hR
    rw [collAlltoallLocal_eq, collAlltoallLocal_eq]
    simp only [alltoallSendTmp_true, alltoallSendTmp_false,
      Option.map_some']
    set e := extentOf stype with he
    have hrun1 : alltoallExchange size count e rank
        (fun p => if p = rank
          then (D rank).take (size * e * count)
          else (D p).take (size * e * count))
        (D rank)
        = alltoallExchange size count e rank D (D rank) := by
      apply alltoallExchange_congr
      intro q hq
      by_cases hqr : q = rank
      · subst hqr
        simp only [if_pos rfl]
        exact List.take_of_length_le (by rw [hD q hq])
      · simp only [if_neg hqr]
        exact List.take_of_length_le (by rw [hD q hq])
    have hrun2 : alltoallExchange size count e rank
        (fun p => if p = rank then D rank else D p) R
        = alltoallExchange size count e rank D R := by
      apply alltoallExchange_congr
      intro q hq
      by_cases hqr : q = rank
      · subst hqr; simp
      · simp [hqr]
    rw [hrun1, hrun2]
    have hpub' : ∀ q, q < size →
        rank * e * count + count * e ≤ (D q).length := by
      intro q hq
      rw [hD q hq]
      exact seg_bound rank size e count hrank
    have hrecv1 : ∀ q, q < size →
        q * e * count + count * e ≤ (D rank).length := by
      intro q hq
      rw [hD rank hrank]
      exact seg_bound q size e count hq
    have hrecv2 : ∀ q, q < size →
        q * e * count + count * e ≤ R.length := by
      intro q hq
      rw [hR]
      exact seg_bound q size e count hq
    congr 1
    apply segExt (count * e) size
    · rw [alltoallExchange_length size count e rank D (D rank) hpub'
        hrecv1, hD rank hrank]
      ring
    · rw [alltoallExchange_length size count e rank D R hpub' hrecv2, hR]
      ring
    · intro p hp
      have hmul : p * (count * e) = p * e * count := by ring
      rw [hmul,
        alltoall_transpose_core size count e rank p D (D rank) hrank hp
          hpub' hrecv1,
        alltoall_transpose_core size count e rank p D R hrank hp
          hpub' hrecv2]
  · intro size rank stype extentOf Dv scountsOf sdisplsOf rcounts rdispls
      scratch hread
    rw [collAlltoallvLocal_eq, collAlltoallvLocal_eq]
    simp only [alltoallvSendTmp_true, alltoallvSendTmp_false,
      Option.map_some']
    set e := extentOf stype with he
    have hrun1 : alltoallvExchange size e rank
        (fun p => if p = rank
          then (Dv rank).take
            (e * alltoallvScratchCount size (scountsOf rank)
              (sdisplsOf rank))
          else (Dv p).take (e * (sdisplsOf p (size - 1)
            + scountsOf p (size - 1))))
        (fun p => if p = rank then sdisplsOf rank else sdisplsOf p)
        rcounts rdispls (Dv rank)
        = alltoallvExchange size e rank Dv sdisplsOf rcounts rdispls
            (Dv rank) := by
      apply alltoallvExchange_congr_read
      intro q hq
      have hpd : (if q = rank then sdisplsOf rank else sdisplsOf q)
          = sdisplsOf q := by
        by_cases hqr : q = rank
        · subst hqr; simp
        · exact if_neg hqr
      rw [hpd]
      by_cases hqr : q = rank
      · subst hqr
        simp only [if_pos rfl, alltoallvScratchCount]
        exact readSeg_take _ _ _ _ (hread q hq)
      · simp only [if_neg hqr]
        exact readSeg_take _ _ _ _ (hread q hq)
    have hrun2 : alltoallvExchange size e rank
        (fun p => if p = rank then Dv rank else Dv p)
        (fun p => if p = rank then sdisplsOf rank else sdisplsOf p)
        rcounts rdispls (Dv rank)
        = alltoallvExchange size e rank Dv sdisplsOf rcounts rdispls
            (Dv rank) := by
      apply alltoallvExchange_congr_read
      intro q hq
      by_cases hqr : q = rank
      · subst hqr; simp
      · simp [hqr]
    rw [hrun1, hrun2]

/-- C4 — Precondition enforcement: the fixed-extent call aborts (the
model returns `none`, matching the fatal `assert`) exactly when
`sendcount ≠ recvcount` or `sendtype ≠ recvtype`, and the ragged call
aborts exactly when `sendtype ≠ recvtype`; under the preconditions both
calls proceed. -/
theorem precondition_asserts :
    (∀ (size rank scount stype rcount rtype : Nat)
        (extentOf : Nat → Nat) (inPlace : Bool) (mem : RankMem)
        (peerPub : Nat → List Nat),
      collAlltoallLocal size rank scount stype rcount rtype extentOf
          inPlace mem peerPub = none
        ↔ (scount ≠ rcount ∨ stype ≠ rtype)) ∧
    (∀ (size rank stype rtype : Nat) (extentOf : Nat → Nat)
        (scounts sdispls rcounts rdispls : Nat → Nat) (inPlace : Bool)
        (mem : RankMem) (peerPub : Nat → List Nat)
        (peerSdispls : Nat → Nat → Nat),
      collAlltoallvLocal size rank stype rtype extentOf scounts sdispls
          rcounts rdispls inPlace mem peerPub peerSdispls = none
        ↔ stype ≠ rtype) := by
  constructor
  · intro size rank scount stype rcount rtype extentOf inPlace mem
      peerPub
    unfold collAlltoallLocal
    split_ifs with h1 h2 <;> simp <;> omega
  · intro size rank stype rtype extentOf scounts sdispls rcounts rdispls
      inPlace mem peerPub peerSdispls
    unfold collAlltoallvLocal
    split_ifs with h1 <;> simp <;> omega

/-- C8 — Ragged in-place scratch sizing: when `sendbuf == recvbuf`, the
scratch buffer published by `collAlltoallvLocal` holds exactly
`extent * (sdispls[size-1] + scounts[size-1])` bytes, and those bytes
are the first that-many bytes copied out of the aliased buffer. -/
theorem alltoallv_scratch_sizing (size e : Nat)
    (scounts sdispls : Nat → Nat) (mem : RankMem)
    (h : e * (sdispls (size - 1) + scounts (size - 1))
      ≤ mem.recv.length) :
    (alltoallvSendTmp size e scounts sdispls true mem).length
        = e * (sdispls (size - 1) + scounts (size - 1))
    ∧ alltoallvSendTmp size e scounts sdispls true mem
        = mem.recv.take (e * (sdispls (size - 1) + scounts (size - 1)))
    := by
  constructor
  · rw [alltoallvSendTmp_true]
    simp only [alltoallvScratchCount, List.length_take]
    exact Nat.min_eq_left h
  · simp [alltoallvSendTmp_true, alltoallvScratchCount]

/-- C9 — Success-only result: whenever either engine returns at all
(the asserts pass), the returned status is `collSuccess`; no other
status value is ever produced at this layer. -/
theorem success_only :
    (∀ (size rank scount stype rcount rtype : Nat)
        (extentOf : Nat → Nat) (inPlace : Bool) (mem : RankMem)
        (peerPub : Nat → List Nat) (out : Int × RankMem),
      collAlltoallLocal size rank scount stype rcount rtype extentOf
          inPlace mem peerPub = some out → out.1 = collSuccess) ∧
    (∀ (size rank stype rtype : Nat) (extentOf : Nat → Nat)
        (scounts sdispls rcounts rdispls : Nat → Nat) (inPlace : Bool)
        (mem : RankMem) (peerPub : Nat → List Nat)
        (peerSdispls : Nat → Nat → Nat) (out : Int × RankMem),
      collAlltoallvLocal size rank stype rtype extentOf scounts sdispls
          rcounts rdispls inPlace mem peerPub peerSdispls = some out →
        out.1 = collSuccess) := by
  constructor
  · intro size rank scount stype rcount rtype extentOf inPlace mem
      peerPub out h
    unfold collAlltoallLocal at h
    split_ifs at h
    simp only [Option.some.injEq] at h
    subst h
    rfl
  · intro size rank stype rtype extentOf scounts sdispls rcounts rdispls
      inPlace mem peerPub peerSdispls out h
    unfold collAlltoallvLocal at h
    split_ifs at h
    simp only [Option.some.injEq] at h
    subst h
    rfl

/-- C10 — Send-buffer preservation: neither engine ever writes through
the send buffer.  At the data-flow level a successful non-aliased call
leaves the send buffer's contents exactly as they were; at the
event-trace level every write of either trace targets the receive
buffer, the scratch buffer or the rank's own pool-slot entries — never
the send buffer. -/
theorem sendbuf_preserved :
    (∀ (size rank scount stype rcount rtype : Nat)
        (extentOf : Nat → Nat) (mem : RankMem)
        (peerPub : Nat → List Nat) (out : Int × RankMem),
      collAlltoallLocal size rank scount stype rcount rtype extentOf
          false mem peerPub = some out → out.2.send = mem.send) ∧
    (∀ (size rank stype rtype : Nat) (extentOf : Nat → Nat)
        (scounts sdispls rcounts rdispls : Nat → Nat) (mem : RankMem)
        (peerPub : Nat → List Nat) (peerSdispls : Nat → Nat → Nat)
        (out : Int × RankMem),
      collAlltoallvLocal size rank stype rtype extentOf scounts sdispls
          rcounts rdispls false mem peerPub peerSdispls = some out →
        out.2.send = mem.send) ∧
    (∀ (size rank : Nat) (inPlace : Bool) (ev : Event),
      ev ∈ alltoallTrace size rank inPlace →
        writeDest ev ≠ some Dest.sendB) ∧
    (∀ (size rank : Nat) (inPlace : Bool) (ev : Event),
      ev ∈ alltoallvTrace size rank inPlace →
        writeDest ev ≠ some Dest.sendB) := by
  refine ⟨?_, ?_, ?_, ?_⟩
  · intro size rank scount stype rcount rtype extentOf mem peerPub out h
    unfold collAlltoallLocal at h
    split_ifs at h
    simp only [Option.some.injEq] at h
    subst h
    rfl
  · intro size rank stype rtype extentOf scounts sdispls rcounts rdispls
      mem peerPub peerSdispls out h
    unfold collAlltoallvLocal at h
    split_ifs at h
    simp only [Option.some.injEq] at h
    subst h
    rfl
  · intro size rank inPlace ev _ hwd
    cases ev <;> simp [writeDest] at hwd
  · intro size rank inPlace ev _ hwd
    cases ev <;> simp [writeDest] at hwd

/-- C6 — Ragged readiness: the ragged engine performs the copy from a
peer exactly when both the peer's published buffer pointer and its
displacement-table pointer are observed non-null (there is no separate
boolean flag: readiness is precisely this conjunction); and whenever the
spin loop exits, the values it copies from were observed non-null at the
exit time, every earlier sample having had at least one null field. -/
theorem ragged_readiness :
    (∀ (e rank peer : Nat) (rcounts rdispls : Nat → Nat)
        (buf : Option (List Nat)) (dis : Option (Nat → Nat))
        (recv : List Nat),
      (raggedTryCopy e rank peer rcounts rdispls buf dis recv).isSome
        ↔ (buf.isSome ∧ dis.isSome)) ∧
    (∀ (obs : Nat → Option (List Nat) × Option (Nat → Nat))
        (fuel t t' : Nat) (b : List Nat) (d : Nat → Nat),
      raggedWaitLoop obs t fuel = some (t', b, d) →
      (obs t').1 = some b ∧ (obs t').2 = some d ∧ t ≤ t' ∧
        ∀ s, t ≤ s → s < t' →
          (obs s).1 = none ∨ (obs s).2 = none) := by
  constructor
  · intro e rank peer rcounts rdispls buf dis recv
    cases buf <;> cases dis <;> simp [raggedTryCopy]
  · intro obs fuel
    induction fuel with
    | zero =>
      intro t t' b d h
      exact Option.noConfusion h
    | succ n ih =>
      intro t t' b d h
      unfold raggedWaitLoop at h
      cases h1 : (obs t).1 with
      | none =>
        rw [h1] at h
        have := ih (t + 1) t' b d h
        refine ⟨this.1, this.2.1, by omega, ?_⟩
        intro s hs hs'
        by_cases hst : s = t
        · subst hst
          exact Or.inl h1
        · exact this.2.2.2 s (by omega) hs'
      | some b0 =>
        rw [h1] at h
        cases h2 : (obs t).2 with
        | none =>
          rw [h2] at h
          have := ih (t + 1) t' b d h
          refine ⟨this.1, this.2.1, by omega, ?_⟩
          intro s hs hs'
          by_cases hst : s = t
          · subst hst
            exact Or.inr h2
          · exact this.2.2.2 s (by omega) hs'
        | some d0 =>
          rw [h2] at h
          simp only [Option.some.injEq, Prod.mk.injEq] at h
          obtain ⟨ht, hb, hd⟩ := h
          subst ht
          subst hb
          subst hd
          exact ⟨h1, h2, Nat.le_refl t, fun s hs hs' => by omega⟩

/-- C5 — Post-exchange sequencing: in both engines the trace factors as
the per-peer copies, then the barrier entry, then (exactly when the
buffers alias) the scratch free, then a tail performing the single
pool-cursor advance — the advance happens exactly once per call and
never before the barrier. -/
theorem post_exchange_sequencing (size rank : Nat) (inPlace : Bool) :
    seqOK (alltoallTrace size rank inPlace) inPlace ∧
    seqOK (alltoallvTrace size rank inPlace) inPlace := by
  constructor
  · refine ⟨(if inPlace then [Event.scratchCopy] else []) ++
      [Event.storePtr, Event.storeFlag, Event.fence] ++
      (List.range size).map (fun j => Event.copy (peerOf size rank j)),
      [Event.advance, Event.fence], rfl, ?_, ?_, ?_, ?_, ?_, ?_, ?_, ?_,
      ?_⟩
    · intro p hp
      unfold alltoallTrace at hp
      cases inPlace <;> simp_all
    · cases inPlace <;> simp
    · cases inPlace <;> simp
    · cases inPlace <;> simp
    · simp
    · simp
    · intro p
      simp
    · rfl
    · unfold alltoallTrace
      cases inPlace <;>
        simp [List.count_append, List.count_eq_zero, List.mem_map]
  · refine ⟨(if inPlace then [Event.scratchCopy] else []) ++
      [Event.storeDispls, Event.storePtr, Event.fence] ++
      (List.range size).map (fun j => Event.copy (peerOf size rank j)),
      [Event.fence, Event.advance], rfl, ?_, ?_, ?_, ?_, ?_, ?_, ?_, ?_,
      ?_⟩
    · intro p hp
      unfold alltoallvTrace at hp
      cases inPlace <;> simp_all
    · cases inPlace <;> simp
    · cases inPlace <;> simp
    · cases inPlace <;> simp
    · simp
    · simp
    · intro p
      simp
    · rfl
    · unfold alltoallvTrace
      cases inPlace <;>
        simp [List.count_append, List.count_eq_zero, List.mem_map]

/-- C7 counterexample — the claim that the publication stores of
`collAlltoallLocal` are both preceded and followed by a full memory
fence fails on the code: in the trace of a non-aliased call on a group
of two, no fence occurs anywhere before the published-pointer store
(the store is the very first event; the only `__sync_synchronize()`
of the publication sequence comes after the flag store). -/
theorem publication_fence_counterexample :
    ¬ fencedPublication (alltoallTrace 2 0 false) := by
  unfold fencedPublication
  decide

/-- C7 amended — Publication fencing as the code actually orders it:
in every `collAlltoallLocal` trace the published-pointer store is
followed immediately by the ready-flag store and then a full fence;
nothing precedes the pointer store except the aliased-case scratch copy
(in particular no fence does); and every call ends with a full fence
after the pool advance, so in back-to-back calls on the same context the
next call's publication stores are preceded by the previous call's
trailing fence. -/
theorem publication_fence_amended (size rank : Nat) (inPlace : Bool) :
    (alltoallTrace size rank inPlace).takeWhile
        (fun ev => !(isStorePtr ev))
      = (if inPlace then [Event.scratchCopy] else []) ∧
    ((alltoallTrace size rank inPlace).dropWhile
        (fun ev => !(isStorePtr ev))).take 3
      = [Event.storePtr, Event.storeFlag, Event.fence] ∧
    (alltoallTrace size rank inPlace).getLast? = some Event.fence := by
  refine ⟨?_, ?_, ?_⟩
  · unfold alltoallTrace
    cases inPlace <;> simp [isStorePtr]
  · unfold alltoallTrace
    cases inPlace <;> simp [isStorePtr]
  · unfold alltoallTrace
    have h : ∀ (l : List Event),
        (l ++ [Event.advance, Event.fence]).getLast?
          = some Event.fence := by
      intro l
      rw [show [Event.advance, Event.fence]
          = [Event.advance] ++ [Event.fence] from rfl,
        ← List.append_assoc, List.getLast?_concat]
    exact h _

/-! ### Witnesses: each claim theorem applied at a concrete input -/

/-- C1 witness: the spec's worked example (three ranks, rank `p`
publishing `[10+p, 20+p, 30+p]`), instantiated at rank 0, self
segment 0. -/
theorem alltoall_transpose_witness :
    readSeg (alltoallExchange 3 1 1 0
        (fun q => [10 + q, 20 + q, 30 + q]) [0, 0, 0]) 0 1
      = readSeg [10, 20, 30] 0 1
    ∧ peerOf 3 0 2 = 0 :=
  alltoall_transpose 3 1 1 0 0 (fun q => [10 + q, 20 + q, 30 + q])
    [0, 0, 0] (by decide) (by decide) (by decide) (by decide)

/-- C2 witness: two ranks, one element each, identity displacement
tables. -/
theorem alltoallv_transpose_witness :
    readSeg (alltoallvExchange 2 1 0 (fun q => [100 + q, 200 + q])
        (fun q r => r) (fun q => 1) (fun q => q) [0, 0]) 1 1
      = readSeg [101, 201] 0 1 :=
  alltoallv_transpose 2 1 0 1 (fun q => [100 + q, 200 + q])
    (fun q r => r) (fun q => 1) (fun q => q) [0, 0]
    (by decide) (by decide) (by decide) (by decide)
    (by
      intro q q' hq hq' hne
      show q + 1 ≤ q' ∨ q' + 1 ≤ q
      omega)

/-- C3 witness: both engines on two ranks, aliased versus distinct
buffers with identical data. -/
theorem inplace_equivalence_witness :
    (Option.map (fun o => o.2.recv)
        (collAlltoallLocal 2 0 1 0 1 0 (fun _ => 1) true ⟨[], [1, 2]⟩
          (fun p => [10 * p + 1, 10 * p + 2].take 2))
      = Option.map (fun o => o.2.recv)
          (collAlltoallLocal 2 0 1 0 1 0 (fun _ => 1) false
            ⟨[1, 2], [7, 8]⟩ (fun q => [10 * q + 1, 10 * q + 2]))) ∧
    (Option.map (fun o => o.2.recv)
        (collAlltoallvLocal 2 0 0 0 (fun _ => 1) (fun r => 1)
          (fun r => r) (fun p => 1) (fun p => p) true ⟨[], [0, 1]⟩
          (fun p => [p, p + 1].take 2) (fun q r => r))
      = Option.map (fun o => o.2.recv)
          (collAlltoallvLocal 2 0 0 0 (fun _ => 1) (fun r => 1)
            (fun r => r) (fun p => 1) (fun p => p) false
            ⟨[0, 1], [0, 1]⟩ (fun q => [q, q + 1]) (fun q r => r))) :=
  ⟨inplace_equivalence.1 2 0 1 0 (fun _ => 1)
      (fun q => [10 * q + 1, 10 * q + 2]) [7, 8] [] (by decide)
      (by decide) (by decide),
    inplace_equivalence.2 2 0 0 (fun _ => 1) (fun q => [q, q + 1])
      (fun q r => 1) (fun q r => r) (fun p => 1) (fun p => p) []
      (by decide)⟩

/-- C4 witness: a count mismatch aborts the fixed call; a type mismatch
aborts the ragged call. -/
theorem precondition_asserts_witness :
    (collAlltoallLocal 1 0 1 0 2 0 (fun _ => 1) false ⟨[], []⟩
        (fun _ => []) = none ↔ ((1 : Nat) ≠ 2 ∨ (0 : Nat) ≠ 0)) ∧
    (collAlltoallvLocal 1 0 0 1 (fun _ => 1) (fun _ => 0) (fun _ => 0)
        (fun _ => 0) (fun _ => 0) false ⟨[], []⟩ (fun _ => [])
        (fun _ _ => 0) = none ↔ (0 : Nat) ≠ 1) :=
  ⟨precondition_asserts.1 1 0 1 0 2 0 (fun _ => 1) false ⟨[], []⟩
      (fun _ => []),
    precondition_asserts.2 1 0 0 1 (fun _ => 1) (fun _ => 0)
      (fun _ => 0) (fun _ => 0) (fun _ => 0) false ⟨[], []⟩
      (fun _ => []) (fun _ _ => 0)⟩

/-- C5 witness: the sequencing split at a concrete aliased call on two
ranks. -/
theorem post_exchange_sequencing_witness :
    seqOK (alltoallTrace 2 0 true) true ∧
    seqOK (alltoallvTrace 2 0 true) true :=
  post_exchange_sequencing 2 0 true

/-- C6 witness: readiness at a concrete observation schedule that is
null at time 0 and non-null from time 1 on. -/
theorem ragged_readiness_witness :
    ((raggedTryCopy 1 0 1 (fun _ => 1) (fun p => p) (some [9, 9])
        (some (fun _ => 0)) [0, 0]).isSome
      ↔ ((some [9, 9] : Option (List Nat)).isSome ∧
          (some (fun _ => (0 : Nat)) : Option (Nat → Nat)).isSome)) ∧
    (((fun t => if t = 0 then (none, none)
        else (some [5], some (fun _ => 0))) (1 : Nat) :
          Option (List Nat) × Option (Nat → Nat)).1 = some [5] ∧
      ((fun t => if t = 0 then (none, none)
        else (some [5], some (fun _ => 0))) (1 : Nat) :
          Option (List Nat) × Option (Nat → Nat)).2
          = some (fun _ => 0) ∧
      0 ≤ 1 ∧
      ∀ s, 0 ≤ s → s < 1 →
        (((fun t => if t = 0 then (none, none)
          else (some [5], some (fun _ => 0))) s :
            Option (List Nat) × Option (Nat → Nat)).1 = none ∨
          ((fun t => if t = 0 then (none, none)
            else (some [5], some (fun _ => 0))) s :
              Option (List Nat) × Option (Nat → Nat)).2 = none)) :=
  ⟨ragged_readiness.1 1 0 1 (fun _ => 1) (fun p => p) (some [9, 9])
      (some (fun _ => 0)) [0, 0],
    ragged_readiness.2
      (fun t => if t = 0 then (none, none)
        else (some [5], some (fun _ => 0))) 2 0 1 [5] (fun _ => 0) rfl⟩

/-- C7 amended witness: the fencing layout of a concrete non-aliased
call on two ranks. -/
theorem publication_fence_amended_witness :
    (alltoallTrace 2 0 false).takeWhile (fun ev => !(isStorePtr ev))
        = [] ∧
    ((alltoallTrace 2 0 false).dropWhile
        (fun ev => !(isStorePtr ev))).take 3
      = [Event.storePtr, Event.storeFlag, Event.fence] ∧
    (alltoallTrace 2 0 false).getLast? = some Event.fence :=
  publication_fence_amended 2 0 false

/-- C8 witness: two ranks, unit counts, identity displacements — the
scratch holds `1 * (1 + 1) = 2` bytes copied from the aliased buffer. -/
theorem alltoallv_scratch_sizing_witness :
    (alltoallvSendTmp 2 1 (fun _ => 1) (fun q => q) true
        ⟨[], [3, 4]⟩).length = 2
    ∧ alltoallvSendTmp 2 1 (fun _ => 1) (fun q => q) true ⟨[], [3, 4]⟩
        = [3, 4] :=
  alltoallv_scratch_sizing 2 1 (fun _ => 1) (fun q => q) ⟨[], [3, 4]⟩
    (by decide)

/-- C9 witness: a completing single-rank call of each engine returns
`collSuccess`. -/
theorem success_only_witness :
    ((collSuccess, (⟨[5], [5]⟩ : RankMem)).1 = collSuccess) ∧
    ((collSuccess, (⟨[5], [5]⟩ : RankMem)).1 = collSuccess) :=
  ⟨success_only.1 1 0 1 0 1 0 (fun _ => 1) false ⟨[5], [9]⟩
      (fun _ => []) (collSuccess, ⟨[5], [5]⟩) rfl,
    success_only.2 1 0 0 0 (fun _ => 1) (fun _ => 1) (fun _ => 0)
      (fun _ => 1) (fun _ => 0) false ⟨[5], [9]⟩ (fun _ => [])
      (fun _ _ => 0) (collSuccess, ⟨[5], [5]⟩) rfl⟩

/-- C10 witness: a completing single-rank call of each engine leaves
the send buffer untouched, and concrete trace events never write the
send buffer. -/
theorem sendbuf_preserved_witness :
    ((collSuccess, (⟨[5], [5]⟩ : RankMem)).2.send = [5]) ∧
    ((collSuccess, (⟨[5], [5]⟩ : RankMem)).2.send = [5]) ∧
    writeDest (Event.copy 1) ≠ some Dest.sendB ∧
    writeDest (Event.copy 0) ≠ some Dest.sendB :=
  ⟨sendbuf_preserved.1 1 0 1 0 1 0 (fun _ => 1) ⟨[5], [9]⟩
      (fun _ => []) (collSuccess, ⟨[5], [5]⟩) rfl,
    sendbuf_preserved.2.1 1 0 0 0 (fun _ => 1) (fun _ => 1)
      (fun _ => 0) (fun _ => 1) (fun _ => 0) ⟨[5], [9]⟩ (fun _ => [])
      (fun _ _ => 0) (collSuccess, ⟨[5], [5]⟩) rfl,
    sendbuf_preserved.2.2.1 2 0 false (Event.copy 1) (by decide),
    sendbuf_preserved.2.2.2 2 0 false (Event.copy 0) (by decide)⟩

end LegateColl
